import Mathlib

/-!
Verification of the text-layout engine of `src/scripts/text_card_layers.py`.

Shallow embedding conventions:
* Python strings are `List Char`; Python `str.isspace` is `Char.isWhitespace`
  (identical on the ASCII whitespace that the layout code manipulates).
* Glyph metrics are abstract: `font.getlength(s)` is a parameter
  `w : List Char → Nat` (pixel width of a string), `draw.textsize(' ' * n)[0]`
  is a parameter `sw : Nat → Nat`, and the bounding-box fit test of one
  font-size iteration is a parameter `fits : Nat → Bool`.
* Python `int` is `Int` where values can be negative, `Nat` where the source
  keeps them non-negative; `int(x)` on a non-negative real is `Int.floor`
  composed with `Int.toNat`, and truncating division of ints is `Int.tdiv`.
* Loops are embedded as fuel-indexed structural recursions so that every
  definition evaluates inside the kernel; the fuel supplied by the wrappers
  is proven (or chosen) large enough that the fuel-exhausted branch coincides
  with the loop-exit branch of the Python code.
-/

/-- Python slice `text[a:b]` (for `0 ≤ a ≤ b`, the only shapes the layout
code uses). -/
def pySlice (text : List Char) (a b : Nat) : List Char :=
  (text.drop a).take (b - a)

/-- Python `str.find('\n')` restricted to the newline search of
`_find_next_fit_length`: index of the first newline, or `none`. -/
def find_nl : List Char → Option Nat
  | [] => none
  | c :: rest => if c = '\n' then some 0 else (find_nl rest).map (· + 1)

/-- Inner retreat loop of `_find_next_fit_length` (lines 292-300): scan from
`end` towards `start`, skipping trailing whitespace, then a word, stopping on
the whitespace just before the word.  The out-of-range default `'a'` is never
consulted: the loop is only entered with `end < text.length`. -/
def scan_back (text : List Char) (start : Nat) : Nat → Bool → Nat
  | 0, _ => 0
  | e + 1, char_seen =>
    if e + 1 ≤ start then e + 1
    else if (text.getD (e + 1) 'a').isWhitespace then
      (if char_seen then e + 1 else scan_back text start e char_seen)
    else scan_back text start e true

/-- Outer retreat loop of `_find_next_fit_length` (lines 287-300): while the
candidate `text[start:end+1]` is wider than `width_px`, retreat `end` with
`scan_back`.  Fuel-indexed; the wrapper passes enough fuel. -/
def shrink_go (w : List Char → Nat) (text : List Char) (start : Nat)
    (width : Int) : Nat → Nat → Nat
  | 0, e => e
  | f + 1, e =>
    if start < e ∧ width < (w (pySlice text start (e + 1)) : Int) then
      shrink_go w text start width f (scan_back text start e false)
    else e

/-- Initial upper-bound end index of `_find_next_fit_length` (lines 283-284):
the next newline at or after `start`, or the last index of the text. -/
def line_end_bound (text : List Char) (start : Nat) : Nat :=
  match find_nl (text.drop start) with
  | some k => start + k
  | none => text.length - 1

/-- Final inclusive end index computed by `_find_next_fit_length`. -/
def find_fit_end (w : List Char → Nat) (text : List Char) (start : Nat)
    (width : Int) : Nat :=
  shrink_go w text start width (line_end_bound text start + 1)
    (line_end_bound text start)

/-- `_find_next_fit_length(text, start, font, width_px)` (lines 275-302):
length of the prefix of `text[start:]` accepted as the next line.  The Python
function returns `end - start + 1`; for `start < len(text)` the final `end`
satisfies `start ≤ end`, and for `start = len(text)` (never reached by the
callers) Python returns `0`, as does this truncated-subtraction version. -/
def _find_next_fit_length (w : List Char → Nat) (text : List Char)
    (start : Nat) (width : Int) : Nat :=
  find_fit_end w text start width + 1 - start

/-- Loop body of `BasicTextLayer._split_lines_to_width` (lines 65-78).
`none` models the `length == 0` early `return self._text`. -/
def split_go (w : List Char → Nat) (text : List Char) (width : Int) :
    Nat → Nat → Option (List (List Char))
  | 0, _ => some []
  | f + 1, index =>
    if index < text.length then
      let len := _find_next_fit_length w text index width
      if len = 0 then none
      else
        match split_go w text width f (index + len) with
        | none => none
        | some ls => some (pySlice text index (index + len) :: ls)
    else some []

/-- `BasicTextLayer._split_lines_to_width` (lines 65-78).  On the
`length == 0` path Python returns the raw string `self._text` where a list of
lines is expected; iterating a Python `str` yields its characters as
one-character strings, which is the `text.map (fun c => [c])` below. -/
def _split_lines_to_width (w : List Char → Nat) (text : List Char)
    (width : Int) : List (List Char) :=
  match split_go w text width text.length 0 with
  | some ls => ls
  | none => text.map (fun c => [c])

/-- `'\n'.join(lines)` as used by both `render` methods (lines 46 and 123). -/
def join_lines (ls : List (List Char)) : List Char :=
  List.intercalate ['\n'] ls

/-- Common font-size search loop of `BasicTextLayer.render` (lines 43-54) and
`EmbeddedImageTextCardLayer.render` (lines 117-137): the list of font sizes at
which a layout is computed, in order.  The per-size layout-and-measure step is
abstracted into the deterministic fit test `fits`; the loop attempts the
current size, stops on a fit, otherwise decrements by one and stops (with the
fit-failure warning) once the decremented size is below 8. -/
def render_font_sizes (fits : Nat → Bool) : Nat → List Nat
  | 0 => [0]
  | s + 1 =>
    (s + 1) :: (if fits (s + 1) then [] else if s < 8 then [] else render_font_sizes fits s)

/-- Python `str.strip()`: remove leading and trailing whitespace. -/
def pyStrip (s : List Char) : List Char :=
  ((s.dropWhile Char.isWhitespace).reverse.dropWhile Char.isWhitespace).reverse

/-- Bounded renaming of Python `str.replace(old, new)` used by
`_pad_embeddings` (line 227): replace each non-overlapping occurrence of
`pat`, scanning left to right; with an empty `pat`, Python inserts `rep`
before every character and at the end. -/
def pyReplace_go (pat rep : List Char) : Nat → List Char → List Char
  | 0, s => s
  | _ + 1, [] => []
  | f + 1, c :: rest =>
    if pat.isPrefixOf (c :: rest) then
      rep ++ pyReplace_go pat rep f ((c :: rest).drop pat.length)
    else c :: pyReplace_go pat rep f rest

/-- Python `s.replace(pat, rep)`. -/
def pyReplace (s pat rep : List Char) : List Char :=
  if pat = [] then rep ++ s.flatMap (fun c => c :: rep)
  else pyReplace_go pat rep s.length s

/-- One bounded `while` of `_next_word_index`: advance `start` while the
character satisfies `p`. -/
def skip_while (p : Char → Bool) (text : List Char) : Nat → Nat → Nat
  | 0, s => s
  | f + 1, s =>
    if h : s < text.length then
      if p (text[s]) then skip_while p text f (s + 1) else s
    else s

/-- `EmbeddedImageTextCardLayer._next_word_index` (lines 241-246): skip the
non-whitespace run at `start`, then the following whitespace run. -/
def _next_word_index (text : List Char) (start : Nat) : Nat :=
  skip_while Char.isWhitespace text text.length
    (skip_while (fun c => ! c.isWhitespace) text text.length start)

/-- The word unit scanned by one `_pad_embeddings` iteration starting at the
head of `s`: a maximal non-whitespace run together with the whitespace run
following it (a pure-whitespace unit when `s` opens with whitespace). -/
def chunk_head (s : List Char) : List Char :=
  s.takeWhile (fun c => ! c.isWhitespace) ++
    (s.dropWhile (fun c => ! c.isWhitespace)).takeWhile Char.isWhitespace

/-- Rest of the text after removing `chunk_head`. -/
def chunk_tail (s : List Char) : List Char :=
  (s.dropWhile (fun c => ! c.isWhitespace)).dropWhile Char.isWhitespace

/-- The word units scanned by `_pad_embeddings`, in order. -/
def word_chunks_go : Nat → List Char → List (List Char)
  | 0, _ => []
  | _ + 1, [] => []
  | f + 1, c :: rest => chunk_head (c :: rest) :: word_chunks_go f (chunk_tail (c :: rest))

/-- The word units of a text (see `word_chunks_go`). -/
def word_chunks (s : List Char) : List (List Char) :=
  word_chunks_go s.length s

/-- The whitespace-delimited words of a text: the maximal non-whitespace
runs, in order (so never empty and never containing whitespace). -/
def split_words_go : Nat → List Char → List (List Char)
  | 0, _ => []
  | _ + 1, [] => []
  | f + 1, c :: rest =>
    if c.isWhitespace then split_words_go f ((c :: rest).dropWhile Char.isWhitespace)
    else (c :: rest).takeWhile (fun x => ! x.isWhitespace) :: split_words_go f (chunk_tail (c :: rest))

/-- The whitespace-delimited words of a text. -/
def split_words (s : List Char) : List (List Char) :=
  split_words_go s.length s

/-- Word-by-word image of a text under the `_pad_embeddings` replacement:
each scanned word unit whose trimmed form is an embedding key is replaced by
`word.replace(word.strip(), padding)`; every other unit is copied through
unchanged.  `emap` is the Python `dict.get` of the embedding map; `getPad`
abstracts `_get_padding_str` at the font of the current iteration. -/
def chunk_pad_text (emap : List Char → Option String)
    (getPad : String → List Char × Nat × Nat) : Nat → List Char → List Char
  | 0, _ => []
  | _ + 1, [] => []
  | f + 1, c :: rest =>
    (match emap (pyStrip (chunk_head (c :: rest))) with
      | some embedding =>
        pyReplace (chunk_head (c :: rest)) (pyStrip (chunk_head (c :: rest)))
          (getPad embedding).1
      | none => chunk_head (c :: rest)) ++
      chunk_pad_text emap getPad f (chunk_tail (c :: rest))

/-- Number of scanned word units whose trimmed form is an embedding key. -/
def chunk_count (emap : List Char → Option String) : Nat → List Char → Nat
  | 0, _ => 0
  | _ + 1, [] => 0
  | f + 1, c :: rest =>
    (if (emap (pyStrip (chunk_head (c :: rest)))).isSome then 1 else 0) +
      chunk_count emap f (chunk_tail (c :: rest))

/-- Loop of `EmbeddedImageTextCardLayer._pad_embeddings` (lines 209-239),
with the loop state `(index, last_index, total_padding, new_text,
embeddings)` made explicit.  `total_padding` is a Python `int` and may go
negative when the padding is shorter than the replaced token.  The
fuel-exhausted arm coincides with the loop-exit arm; the wrappers pass fuel
`text.length`, sufficient because `_next_word_index` strictly advances. -/
def pad_go (emap : List Char → Option String)
    (getPad : String → List Char × Nat × Nat) (text : List Char) :
    Nat → Nat → Nat → Int → List Char → List (Int × String × Nat × Nat) →
    List Char × List (Int × String × Nat × Nat)
  | 0, index, last_index, _, new_text, embeddings =>
    (if last_index ≠ index then new_text ++ pySlice text last_index index else new_text,
      embeddings)
  | f + 1, index, last_index, total_padding, new_text, embeddings =>
    if index < text.length then
      let next := _next_word_index text index
      let word := pySlice text index next
      match emap (pyStrip word) with
      | some embedding =>
        let pe := getPad embedding
        let replacement_text := pyReplace word (pyStrip word) pe.1
        pad_go emap getPad text f next next
          (total_padding + (replacement_text.length : Int) - (word.length : Int))
          (new_text ++ pySlice text last_index index ++ replacement_text)
          (embeddings ++ [((index : Int) + total_padding, embedding, pe.2)])
      | none => pad_go emap getPad text f next last_index total_padding new_text embeddings
    else
      (if last_index ≠ index then new_text ++ pySlice text last_index index else new_text,
        embeddings)

/-- `EmbeddedImageTextCardLayer._pad_embeddings` (lines 209-239): returns the
padded text and the list of embed records `(offset in padded text, embedding
id, pixel size)`. -/
def _pad_embeddings (emap : List Char → Option String)
    (getPad : String → List Char × Nat × Nat) (text : List Char) :
    List Char × List (Int × String × Nat × Nat) :=
  pad_go emap getPad text text.length 0 0 0 [] []

/-- Padding-growth loop of `_get_padding_str` (lines 265-267): starting from
one space, add spaces while the rendered width of the run is below the
target.  `sw n` abstracts `draw.textsize(' ' * n, font)[0]`. -/
def pad_count_go (sw : Nat → Nat) (target : ℚ) : Nat → Nat → Nat
  | 0, n => n
  | f + 1, n => if (sw n : ℚ) < target then pad_count_go sw target f (n + 1) else n

/-- `EmbeddedImageTextCardLayer._get_padding_str` (lines 257-270), returning
the number of spaces in the padding string together with the embed pixel
size.  `img_w`/`img_h` are the natural size of the embedded image,
`height_px` is `draw.textsize(' ', font)[1]`, and float arithmetic is
idealised as rational arithmetic.  Python's `int()` on the non-negative
quotients is floor followed by `Int.toNat`. -/
def _get_padding_str (sw : Nat → Nat) (height_px img_w img_h : Nat)
    (fuel : Nat) : Nat × Nat × Nat :=
  let image_w_h_ratio : ℚ := (img_w : ℚ) / (img_h : ℚ)
  let target_width : ℚ := image_w_h_ratio * (height_px : ℚ)
  let padding := pad_count_go sw target_width fuel 1
  let w_ratio : ℚ := (img_w : ℚ) / (sw padding : ℚ)
  (padding, Int.toNat ⌊(img_w : ℚ) / w_ratio⌋, Int.toNat ⌊(img_h : ℚ) / w_ratio⌋)

/-- Modelled from the spec: the `VerticalTextAlignment` enum of
`config_enums.py` (a file not under `src/`), with the `TOP`, `MIDDLE`,
`BOTTOM` modes the spec names. -/
inductive VerticalTextAlignment where
  | TOP
  | MIDDLE
  | BOTTOM
deriving DecidableEq

/-- The `Placement` rectangle of `placement.py` as used here: pixel
coordinates and size. -/
structure Placement where
  x : Int
  y : Int
  w : Int
  h : Int

/-- `_get_v_offset` (lines 305-316).  `text_bbox` is the 4-tuple returned by
`draw.multiline_textbbox((0, 0), ...)`; the code reads only `text_bbox[3]`,
the bottom coordinate `y1` of the box anchored at the origin.  Python's
`int((h - y1) / 2)` truncates the float quotient towards zero, which is
`Int.tdiv`. -/
def _get_v_offset (v_alignment : Option VerticalTextAlignment)
    (text_bbox : Int × Int × Int × Int) (text_placement : Placement) : Int :=
  if v_alignment = some VerticalTextAlignment.MIDDLE then
    Int.tdiv (text_placement.h - text_bbox.2.2.2) 2
  else if v_alignment = some VerticalTextAlignment.BOTTOM then
    text_placement.h - text_bbox.2.2.2
  else 0

/-- `_DEFAULT_FONT_WINDOWS` (line 15). -/
def DEFAULT_FONT_WINDOWS : List Char := "\\Windows\\Fonts\\constan.ttf".toList

/-- `_DEFAULT_FONT_MACOS` (line 16). -/
def DEFAULT_FONT_MACOS : List Char := "/Library/Fonts/GeorgiaPro-CondLight.ttf".toList

/-- `_STARTING_FONT_SIZE` (line 17). -/
def STARTING_FONT_SIZE : Nat := 32

/-- `_get_default_font_file` (lines 319-325): `platform` is `sys.platform`;
the unknown-OS branch raises, modelled as `Except.error`. -/
def _get_default_font_file (platform : List Char) : Except String (List Char) :=
  if List.isPrefixOf "win32".toList platform then Except.ok DEFAULT_FONT_WINDOWS
  else if List.isPrefixOf "darwin".toList platform then Except.ok DEFAULT_FONT_MACOS
  else Except.error "No default font known for OS."

/-- The `font_file or _get_default_font_file()` resolution performed by both
constructors (lines 34 and 106): a missing *or empty* (falsy) `font_file`
falls back to the platform default, propagating its exception. -/
def resolve_font_file (platform : List Char) (font_file : Option (List Char)) :
    Except String (List Char) :=
  match font_file with
  | some s => if s = [] then _get_default_font_file platform else Except.ok s
  | none => _get_default_font_file platform

/-- Python `x or d` for an optional integer argument: `None` and the falsy
`0` both yield the default. -/
def or_default_nat (x : Option Nat) (d : Nat) : Nat :=
  match x with
  | none => d
  | some v => if v = 0 then d else v

/-- Python `x or d` for an optional float argument: `None` and the falsy
`0.0` both yield the default. -/
def or_default_rat (x : Option ℚ) (d : ℚ) : ℚ :=
  match x with
  | none => d
  | some v => if v = 0 then d else v

/-- The fields `BasicTextLayer.__init__` (lines 22-36) stores. -/
structure BasicTextConfig where
  text : List Char
  placement : Placement
  starting_font_size : Nat
  font_file : List Char
  spacing_ratio : ℚ
  v_alignment : VerticalTextAlignment

/-- `BasicTextLayer.__init__` (lines 22-36).  Construction fails exactly when
the font-file resolution raises; every `x or default` is Python truthiness.
`v_alignment or VerticalTextAlignment.TOP` is modelled as `getD` (enum
members are assumed truthy; the enum lives in `config_enums.py`). -/
def basic_init (platform : List Char) (text : List Char) (placement : Placement)
    (max_font_size : Option Nat) (font_file : Option (List Char))
    (spacing_ratio : Option ℚ) (v_alignment : Option VerticalTextAlignment) :
    Except String BasicTextConfig :=
  match resolve_font_file platform font_file with
  | Except.error e => Except.error e
  | Except.ok ff =>
    Except.ok
      { text := text
        placement := placement
        starting_font_size := or_default_nat max_font_size STARTING_FONT_SIZE
        font_file := ff
        spacing_ratio := or_default_rat spacing_ratio 0
        v_alignment := v_alignment.getD VerticalTextAlignment.TOP }

/-- The fields `EmbeddedImageTextCardLayer.__init__` (lines 88-110) stores
(the opaque `image_provider` collaborator handle is omitted: it carries no
layout data). -/
structure EmbeddedImageTextConfig where
  text : List Char
  placement : Placement
  embedding_map : List Char → Option String
  starting_font_size : Nat
  font_file : List Char
  spacing_ratio : ℚ
  v_alignment : VerticalTextAlignment
  embed_v_offset_ratio : ℚ
  embed_size_ratio : ℚ

/-- `EmbeddedImageTextCardLayer.__init__` (lines 88-110). -/
def embedded_init (platform : List Char) (text : List Char)
    (placement : Placement) (embedding_map : List Char → Option String)
    (max_font_size : Option Nat) (font_file : Option (List Char))
    (spacing_ratio : Option ℚ) (v_alignment : Option VerticalTextAlignment)
    (embed_v_offset_ratio : Option ℚ) (embed_size_ratio : Option ℚ) :
    Except String EmbeddedImageTextConfig :=
  match resolve_font_file platform font_file with
  | Except.error e => Except.error e
  | Except.ok ff =>
    Except.ok
      { text := text
        placement := placement
        embedding_map := embedding_map
        starting_font_size := or_default_nat max_font_size STARTING_FONT_SIZE
        font_file := ff
        spacing_ratio := or_default_rat spacing_ratio 0
        v_alignment := v_alignment.getD VerticalTextAlignment.TOP
        embed_v_offset_ratio := or_default_rat embed_v_offset_ratio 0
        embed_size_ratio := or_default_rat embed_size_ratio 1 }

/-! Lemmas about the retreat loops of `_find_next_fit_length`. -/

theorem scan_back_le (text : List Char) (start : Nat) :
    ∀ e b, scan_back text start e b ≤ e := by
  intro e
  induction e with
  | zero => intro b; simp [scan_back]
  | succ e ih =>
    intro b
    simp only [scan_back]
    split
    · exact Nat.le_refl _
    · split
      · split
        · exact Nat.le_refl _
        · exact Nat.le_trans (ih b) (Nat.le_succ e)
      · exact Nat.le_trans (ih true) (Nat.le_succ e)

theorem scan_back_ge (text : List Char) (start : Nat) :
    ∀ e b, start ≤ e → start ≤ scan_back text start e b := by
  intro e
  induction e with
  | zero => intro b h; simpa [scan_back] using h
  | succ e ih =>
    intro b h
    simp only [scan_back]
    split
    · exact h
    · rename_i hgt
      have hse : start ≤ e := Nat.lt_succ_iff.mp (Nat.lt_of_not_le hgt)
      split
      · split
        · exact h
        · exact ih b hse
      · exact ih true hse

theorem scan_back_lt (text : List Char) (start : Nat) (e : Nat) (h : start < e) :
    scan_back text start e false < e := by
  cases e with
  | zero => exact absurd h (Nat.not_lt_zero start)
  | succ e =>
    simp only [scan_back]
    split
    · rename_i hle
      exact absurd h (Nat.not_lt_of_le hle)
    · split
      · exact Nat.lt_succ_of_le (scan_back_le text start e false)
      · exact Nat.lt_succ_of_le (scan_back_le text start e true)

theorem scan_back_stop (text : List Char) (start : Nat) :
    ∀ e b, start ≤ e →
      scan_back text start e b = start ∨
        (text.getD (scan_back text start e b) 'a').isWhitespace := by
  intro e
  induction e with
  | zero =>
    intro b h
    left
    simpa [scan_back] using (Nat.le_zero.mp h).symm
  | succ e ih =>
    intro b h
    simp only [scan_back]
    split
    · rename_i hle
      left
      exact Nat.le_antisymm hle h
    · rename_i hgt
      have hse : start ≤ e := Nat.lt_succ_iff.mp (Nat.lt_of_not_le hgt)
      split
      · rename_i hws
        split
        · right; exact hws
        · exact ih b hse
      · exact ih true hse

theorem shrink_go_le (w : List Char → Nat) (text : List Char) (start : Nat)
    (width : Int) : ∀ f e, shrink_go w text start width f e ≤ e := by
  intro f
  induction f with
  | zero => intro e; exact Nat.le_refl _
  | succ f ih =>
    intro e
    simp only [shrink_go]
    split
    · exact Nat.le_trans (ih _) (scan_back_le text start e false)
    · exact Nat.le_refl _

theorem shrink_go_ge (w : List Char → Nat) (text : List Char) (start : Nat)
    (width : Int) : ∀ f e, start ≤ e → start ≤ shrink_go w text start width f e := by
  intro f
  induction f with
  | zero => intro e h; exact h
  | succ f ih =>
    intro e h
    simp only [shrink_go]
    split
    · exact ih _ (scan_back_ge text start e false h)
    · exact h

theorem shrink_go_stop (w : List Char → Nat) (text : List Char) (start : Nat)
    (width : Int) :
    ∀ f e, start ≤ e →
      (e = start ∨ (text.getD e 'a').isWhitespace ∨ e = text.length - 1) →
      (shrink_go w text start width f e = start ∨
        (text.getD (shrink_go w text start width f e) 'a').isWhitespace ∨
        shrink_go w text start width f e = text.length - 1) := by
  intro f
  induction f with
  | zero => intro e _ hq; exact hq
  | succ f ih =>
    intro e h hq
    simp only [shrink_go]
    split
    · rename_i hcond
      refine ih _ (scan_back_ge text start e false h) ?_
      rcases scan_back_stop text start e false h with hs | hw
      · exact Or.inl hs
      · exact Or.inr (Or.inl hw)
    · exact hq

theorem shrink_go_exit (w : List Char → Nat) (text : List Char) (start : Nat)
    (width : Int) :
    ∀ f e, e ≤ start + f →
      ¬(start < shrink_go w text start width f e ∧
        width < (w (pySlice text start (shrink_go w text start width f e + 1)) : Int)) := by
  intro f
  induction f with
  | zero =>
    intro e hf
    simp only [shrink_go]
    intro hc
    exact absurd hc.1 (Nat.not_lt_of_le (by simpa using hf))
  | succ f ih =>
    intro e hf
    simp only [shrink_go]
    split
    · rename_i hcond
      refine ih (scan_back text start e false) ?_
      have hlt : scan_back text start e false < e := scan_back_lt text start e hcond.1
      omega
    · rename_i hcond
      exact hcond

theorem find_nl_lt : ∀ {s : List Char} {k : Nat}, find_nl s = some k → k < s.length := by
  intro s
  induction s with
  | nil => intro k h; simp [find_nl] at h
  | cons c rest ih =>
    intro k h
    simp only [find_nl] at h
    split at h
    · cases h; simp
    · rcases Option.map_eq_some'.mp h with ⟨k', hk', rfl⟩
      simpa using Nat.succ_lt_succ (ih hk')

theorem find_nl_char : ∀ {s : List Char} {k : Nat}, find_nl s = some k →
    s.getD k 'a' = '\n' := by
  intro s
  induction s with
  | nil => intro k h; simp [find_nl] at h
  | cons c rest ih =>
    intro k h
    simp only [find_nl] at h
    split at h
    · cases h; rename_i hc; simpa using hc
    · rcases Option.map_eq_some'.mp h with ⟨k', hk', rfl⟩
      simpa [List.getD_cons_succ] using ih hk'

theorem line_end_bound_ge (text : List Char) (start : Nat)
    (h : start < text.length) : start ≤ line_end_bound text start := by
  cases hnl : find_nl (text.drop start) with
  | some k => simp only [line_end_bound, hnl]; omega
  | none => simp only [line_end_bound, hnl]; omega

theorem line_end_bound_lt (text : List Char) (start : Nat)
    (h : start < text.length) : line_end_bound text start < text.length := by
  cases hnl : find_nl (text.drop start) with
  | some k =>
    have hk : k < text.length - start := by simpa using find_nl_lt hnl
    simp only [line_end_bound, hnl]
    omega
  | none => simp only [line_end_bound, hnl]; omega

theorem line_end_bound_stop (text : List Char) (start : Nat)
    (h : start < text.length) :
    (text.getD (line_end_bound text start) 'a').isWhitespace ∨
      line_end_bound text start = text.length - 1 := by
  cases hnl : find_nl (text.drop start) with
  | some k =>
    left
    simp only [line_end_bound, hnl]
    have := find_nl_char hnl
    rw [List.getD_eq_getElem?_getD, ← List.getElem?_drop,
      ← List.getD_eq_getElem?_getD, this]
    decide
  | none =>
    right
    simp only [line_end_bound, hnl]

theorem find_fit_end_ge (w : List Char → Nat) (text : List Char) (start : Nat)
    (width : Int) (h : start < text.length) :
    start ≤ find_fit_end w text start width :=
  shrink_go_ge w text start width _ _ (line_end_bound_ge text start h)

theorem find_fit_end_lt (w : List Char → Nat) (text : List Char) (start : Nat)
    (width : Int) (h : start < text.length) :
    find_fit_end w text start width < text.length :=
  Nat.lt_of_le_of_lt (shrink_go_le w text start width _ _)
    (line_end_bound_lt text start h)

theorem find_fit_end_stop (w : List Char → Nat) (text : List Char) (start : Nat)
    (width : Int) (h : start < text.length) :
    find_fit_end w text start width = start ∨
      (text.getD (find_fit_end w text start width) 'a').isWhitespace ∨
      find_fit_end w text start width = text.length - 1 := by
  refine shrink_go_stop w text start width _ _ (line_end_bound_ge text start h) ?_
  rcases line_end_bound_stop text start h with hw | he
  · exact Or.inr (Or.inl hw)
  · exact Or.inr (Or.inr he)

theorem find_fit_end_exit (w : List Char → Nat) (text : List Char) (start : Nat)
    (width : Int) :
    ¬(start < find_fit_end w text start width ∧
      width < (w (pySlice text start (find_fit_end w text start width + 1)) : Int)) :=
  shrink_go_exit w text start width _ _ (by omega)

theorem fnfl_pos (w : List Char → Nat) (text : List Char) (start : Nat)
    (width : Int) (h : start < text.length) :
    1 ≤ _find_next_fit_length w text start width := by
  unfold _find_next_fit_length
  have := find_fit_end_ge w text start width h
  omega

theorem fnfl_add_le (w : List Char → Nat) (text : List Char) (start : Nat)
    (width : Int) (h : start < text.length) :
    start + _find_next_fit_length w text start width ≤ text.length := by
  unfold _find_next_fit_length
  have h1 := find_fit_end_ge w text start width h
  have h2 := find_fit_end_lt w text start width h
  omega

/-! Lemmas about Python slices. -/

theorem pySlice_length (text : List Char) (a n : Nat) (h : a + n ≤ text.length) :
    (pySlice text a (a + n)).length = n := by
  unfold pySlice
  rw [List.length_take, List.length_drop]
  omega

theorem pySlice_append_drop (text : List Char) (a b : Nat) (hab : a ≤ b) :
    pySlice text a b ++ text.drop b = text.drop a := by
  unfold pySlice
  have : text.drop b = (text.drop a).drop (b - a) := by
    rw [List.drop_drop]
    congr 1
    omega
  rw [this, List.take_append_drop]

theorem pySlice_getLastD (text : List Char) (a e : Nat) (d : Char)
    (ha : a ≤ e) (he : e < text.length) :
    (pySlice text a (e + 1)).getLastD d = text.getD e d := by
  unfold pySlice
  rw [List.getLastD_eq_getLast?, List.getLast?_eq_getElem?,
    List.getD_eq_getElem?_getD]
  have hlen : ((text.drop a).take (e + 1 - a)).length = (e - a) + 1 := by
    rw [List.length_take, List.length_drop]
    omega
  rw [hlen]
  simp only [Nat.add_sub_cancel]
  rw [List.getElem?_take, if_pos (by omega), List.getElem?_drop]
  have hae : a + (e - a) = e := by omega
  rw [hae]

theorem pySlice_ne_nil (text : List Char) (a b : Nat) (ha : a < b)
    (hb : a < text.length) : pySlice text a b ≠ [] := by
  intro hc
  have hlen : (pySlice text a b).length = (b - a) ⊓ (text.length - a) := by
    unfold pySlice
    rw [List.length_take, List.length_drop]
  rw [hc] at hlen
  simp only [List.length_nil] at hlen
  omega

theorem split_go_step (w : List Char → Nat) (text : List Char) (width : Int)
    (f index : Nat) (hidx : index < text.length)
    (hpos : _find_next_fit_length w text index width ≠ 0) :
    split_go w text width (f + 1) index =
      match split_go w text width f
          (index + _find_next_fit_length w text index width) with
      | none => none
      | some ls =>
        some (pySlice text index
          (index + _find_next_fit_length w text index width) :: ls) := by
  simp only [split_go]
  rw [if_pos hidx, if_neg hpos]

theorem split_go_spec (w : List Char → Nat) (text : List Char) (width : Int) :
    ∀ f index, text.length - index ≤ f →
      ∃ ls, split_go w text width f index = some ls ∧
        ls.flatten = text.drop index ∧
        (∀ l ∈ ls, l ≠ []) ∧
        (∀ l ∈ ls.dropLast, l.length = 1 ∨ (l.getLastD 'a').isWhitespace) := by
  intro f
  induction f with
  | zero =>
    intro index hf
    have hdrop : text.drop index = [] := List.drop_eq_nil_iff.mpr (by omega)
    refine ⟨[], rfl, by simp [hdrop], by simp, by simp⟩
  | succ f ih =>
    intro index hf
    by_cases hidx : index < text.length
    · have hpos : 1 ≤ _find_next_fit_length w text index width :=
        fnfl_pos w text index width hidx
      have hadd : index + _find_next_fit_length w text index width ≤ text.length :=
        fnfl_add_le w text index width hidx
      obtain ⟨ls', hgo, hflat, hne, hnice⟩ :=
        ih (index + _find_next_fit_length w text index width) (by omega)
      refine ⟨pySlice text index (index + _find_next_fit_length w text index width) :: ls',
        ?_, ?_, ?_, ?_⟩
      · rw [split_go_step w text width f index hidx (by omega), hgo]
      · rw [List.flatten_cons, hflat,
          pySlice_append_drop text index _ (by omega)]
      · intro l hl
        rcases List.mem_cons.mp hl with rfl | hl'
        · exact pySlice_ne_nil text index _ (by omega) hidx
        · exact hne l hl'
      · rcases hls' : ls' with _ | ⟨l0, ls''⟩
        · simp
        · rw [← hls', List.dropLast_cons_of_ne_nil (by rw [hls']; simp)]
        
          intro l hl
          rcases List.mem_cons.mp hl with rfl | hl'
          · -- the head line: the tail is non-empty, so this line is interior
            have htail : text.drop (index + _find_next_fit_length w text index width) ≠ [] := by
              rw [← hflat, hls']
              have hl0 : l0 ≠ [] := hne l0 (by rw [hls']; simp)
              rcases l0 with _ | ⟨c0, l0'⟩
              · exact absurd rfl hl0
              · simp
            have hlt : index + _find_next_fit_length w text index width < text.length := by
              by_contra hge
              exact htail (List.drop_eq_nil_iff.mpr (by omega))
            have heq : index + _find_next_fit_length w text index width =
                find_fit_end w text index width + 1 := by
              unfold _find_next_fit_length
              have := find_fit_end_ge w text index width hidx
              omega
            rcases find_fit_end_stop w text index width hidx with hst | hws | hlast
            · left
              rw [heq, hst]
              exact pySlice_length text index 1 (by omega)
            · right
              rw [heq]
              rw [pySlice_getLastD text index _ 'a'
                (find_fit_end_ge w text index width hidx)
                (find_fit_end_lt w text index width hidx)]
              exact hws
            · exfalso
              rw [heq, hlast] at hlt
              omega
          · exact hnice l hl'
    · have hdrop : text.drop index = [] := List.drop_eq_nil_iff.mpr (by omega)
      refine ⟨[], ?_, by simp [hdrop], by simp, by simp⟩
      simp only [split_go]
      rw [if_neg hidx]

/-- Interior line boundaries of a line list: the positions (character offsets
into the concatenation) at which one line ends and the next begins. -/
def line_boundaries (ls : List (List Char)) : List Nat :=
  ((ls.dropLast.map List.length).scanl (· + ·) 0).drop 1

/-- The claim C2 property at one input: every interior line boundary of `ls`
lies at a whitespace character of `text` on at least one side — equivalently,
no boundary falls strictly inside a contiguous non-whitespace run. -/
def no_word_split (text : List Char) (ls : List (List Char)) : Prop :=
  ∀ p ∈ line_boundaries ls,
    p = 0 ∨ text.length ≤ p ∨
      (text.getD (p - 1) 'a').isWhitespace ∨ (text.getD p 'a').isWhitespace

/-- C1: the claim says that whenever even the first character at the scan
position cannot fit the width, `_find_next_fit_length` returns 0, the
"unable to fit text a row" diagnostic is emitted and the original text is
returned unsplit.  Evaluating the code at such an input refutes this: with
every character 1px wide and width 0 (so the first character does not fit),
`_find_next_fit_length` returns 1 — the retreat loop stops at `end == start`
and `end - start + 1 = 1` — and the splitter silently emits one character per
line; the `length == 0` fallback branch is unreachable (`fnfl_pos`). -/
theorem c1_zero_signal_unreachable :
    (0 : Int) < (List.length ['a'] : Int) ∧
    _find_next_fit_length List.length ['a', 'b'] 0 0 = 1 ∧
    _split_lines_to_width List.length ['a', 'b'] 0 = [['a'], ['b']] := by
  decide

/-- C2, counterexample: with every character 1px wide and width 0, the word
"ab" is split between its two letters — the boundary at position 1 lies
strictly inside a non-whitespace run, refuting the unconditional
no-word-splitting claim. -/
theorem c2_word_split_counterexample :
    ¬ no_word_split ['a', 'b'] (_split_lines_to_width List.length ['a', 'b'] 0) := by
  unfold no_word_split
  decide

/-- C2, amended: the produced lines concatenate back to the input text, and
every interior line boundary ends its line at a whitespace character (which
includes explicit newlines), except that a line may be a single character
when even a one-character line exceeded the width (the bottomed-out retreat);
only in that overflow case can a word be split. -/
theorem c2_line_breaks_at_whitespace (w : List Char → Nat) (text : List Char)
    (width : Int) :
    (_split_lines_to_width w text width).flatten = text ∧
    (∀ l ∈ _split_lines_to_width w text width, l ≠ []) ∧
    ∀ l ∈ (_split_lines_to_width w text width).dropLast,
      l.length = 1 ∨ (l.getLastD 'a').isWhitespace := by
  obtain ⟨ls, hgo, hflat, hne, hnice⟩ :=
    split_go_spec w text width text.length 0 (by omega)
  unfold _split_lines_to_width
  rw [hgo]
  exact ⟨by simpa using hflat, hne, hnice⟩

/-- C2, witness: the amended statement instantiated at a concrete metric
(every character 1px), text `"aa b"` and width 3. -/
theorem c2_line_breaks_witness :
    (_split_lines_to_width List.length "aa b".toList 3).flatten = "aa b".toList ∧
    (∀ l ∈ _split_lines_to_width List.length "aa b".toList 3, l ≠ []) ∧
    ∀ l ∈ (_split_lines_to_width List.length "aa b".toList 3).dropLast,
      l.length = 1 ∨ (l.getLastD 'a').isWhitespace :=
  c2_line_breaks_at_whitespace List.length "aa b".toList 3

/-- C5: the claim says an explicit newline is preserved as a line separator
exactly once and never duplicated as a rendered break.  Evaluating the code
on `"a\nb"` (everything fits: width 100, characters 1px) refutes this: the
first produced line is `"a\n"` — `end = start + newline` makes the slice
`text[start:end+1]` include the newline, contradicting the code's own
comment "no newlines at this point" — so `'\n'.join` renders the break
twice: the joined text is `"a\n\nb"`, with two newlines where the input had
one. -/
theorem c5_newline_duplicated :
    _split_lines_to_width List.length ['a', '\n', 'b'] 100 = [['a', '\n'], ['b']] ∧
    join_lines (_split_lines_to_width List.length ['a', '\n', 'b'] 100) =
      ['a', '\n', '\n', 'b'] ∧
    List.count '\n' ['a', '\n', 'b'] = 1 ∧
    List.count '\n'
      (join_lines (_split_lines_to_width List.length ['a', '\n', 'b'] 100)) = 2 := by
  decide

/-! Lemmas about the font-size search loop. -/

theorem render_font_sizes_shape (fits : Nat → Bool) :
    ∀ M, ∃ n, render_font_sizes fits M = (List.range n).map (fun i => M - i) ∧
      1 ≤ n ∧ (8 ≤ M → n ≤ M - 7) := by
  intro M
  induction M with
  | zero =>
    refine ⟨1, ?_, Nat.le_refl 1, by omega⟩
    simp [render_font_sizes, List.range_succ]
  | succ s ih =>
    by_cases hfit : fits (s + 1)
    · refine ⟨1, ?_, Nat.le_refl 1, by omega⟩
      simp [render_font_sizes, hfit, List.range_succ]
    · by_cases hs : s < 8
      · refine ⟨1, ?_, Nat.le_refl 1, by omega⟩
        simp [render_font_sizes, hfit, hs, List.range_succ]
      · obtain ⟨n, hrep, h1, hbound⟩ := ih
        refine ⟨n + 1, ?_, by omega, by omega⟩
        have hunf : render_font_sizes fits (s + 1) =
            (s + 1) :: render_font_sizes fits s := by
          simp [render_font_sizes, hfit, hs]
        rw [hunf, hrep, List.range_succ_eq_map, List.map_cons, List.map_map]
        refine congrArg₂ List.cons (by omega)
          (congrArg (fun g => List.map g (List.range n)) ?_)
        funext i
        simp only [Function.comp_apply]
        omega

theorem render_font_sizes_ne_nil (fits : Nat → Bool) (M : Nat) :
    render_font_sizes fits M ≠ [] := by
  cases M with
  | zero => simp [render_font_sizes]
  | succ s => simp [render_font_sizes]

theorem getLastD_irrel {α : Type} (l : List α) (hne : l ≠ []) (d d' : α) :
    l.getLastD d = l.getLastD d' := by
  rw [List.getLastD_eq_getLast?, List.getLastD_eq_getLast?]
  cases hl : l.getLast? with
  | some a => rfl
  | none => exact absurd (List.getLast?_eq_none_iff.mp hl) hne

theorem render_font_sizes_floor (fits : Nat → Bool) :
    ∀ M, 8 ≤ M →
      fits ((render_font_sizes fits M).getLastD 0) = false →
      (render_font_sizes fits M).getLastD 0 = 8 := by
  intro M
  induction M with
  | zero => intro h; omega
  | succ s ih =>
    intro hM hlast
    by_cases hfit : fits (s + 1)
    · rw [show render_font_sizes fits (s + 1) = [s + 1] by
          simp [render_font_sizes, hfit],
        show ([s + 1] : List Nat).getLastD 0 = s + 1 from rfl] at hlast
      rw [hlast] at hfit
      simp at hfit
    · by_cases hs : s < 8
      · rw [show render_font_sizes fits (s + 1) = [s + 1] by
            simp [render_font_sizes, hfit, hs],
          show ([s + 1] : List Nat).getLastD 0 = s + 1 from rfl]
        omega
      · have hrw : render_font_sizes fits (s + 1) =
            (s + 1) :: render_font_sizes fits s := by
          simp [render_font_sizes, hfit, hs]
        rw [hrw, List.getLastD_cons,
          getLastD_irrel _ (render_font_sizes_ne_nil fits s) (s + 1) 0] at hlast ⊢
        exact ih (by omega) hlast

/-- C3, counterexample: the claim bounds the number of font-size iterations
by `max_font_size − 8`.  At `max_font_size = 8` (allowed: the claim
quantifies over every `max_font_size ≥ 8`) with a never-fitting layout the
loop still performs one iteration — the mandatory attempt at size 8 — which
exceeds the claimed bound `8 − 8 = 0`; the correct worst case is
`max_font_size − 7` iterations (sizes `max_font_size` down to `8`). -/
theorem c3_iteration_bound_counterexample :
    8 ≤ 8 ∧ render_font_sizes (fun _ => false) 8 = [8] ∧
    ¬((render_font_sizes (fun _ => false) 8).length ≤ 8 - 8) := by
  decide

/-- C3, amended: for every `max_font_size ≥ 8` the search loop attempts
sizes that decrease by exactly 1 per iteration starting at `max_font_size`
(the attempt list is `[M, M-1, ...]`), performs at most `max_font_size − 7`
iterations (not `max_font_size − 8`), never attempts a size below the floor
8 nor above `max_font_size`, always terminates with a layout (the attempt
list is non-empty), and if the loop stops on a size whose layout does not
fit then that last-attempted size is the floor 8 (the fit-failure
fallback). -/
theorem c3_font_size_search (fits : Nat → Bool) (M : Nat) (hM : 8 ≤ M) :
    (render_font_sizes fits M).length ≤ M - 7 ∧
    render_font_sizes fits M =
      (List.range (render_font_sizes fits M).length).map (fun i => M - i) ∧
    render_font_sizes fits M ≠ [] ∧
    (∀ s ∈ render_font_sizes fits M, 8 ≤ s ∧ s ≤ M) ∧
    (fits ((render_font_sizes fits M).getLastD 0) = false →
      (render_font_sizes fits M).getLastD 0 = 8) := by
  obtain ⟨n, hrep, h1, hbound⟩ := render_font_sizes_shape fits M
  have hlen : (render_font_sizes fits M).length = n := by
    rw [hrep]
    simp
  refine ⟨?_, ?_, render_font_sizes_ne_nil fits M, ?_,
    render_font_sizes_floor fits M hM⟩
  · rw [hlen]
    exact hbound hM
  · rw [hlen, hrep]
  · intro s hs
    rw [hrep] at hs
    rcases List.mem_map.mp hs with ⟨i, hi, rfl⟩
    have hin : i < n := List.mem_range.mp hi
    have hn7 : n ≤ M - 7 := hbound hM
    omega

/-- C3, witness: the amended statement at `max_font_size = 9` with a
never-fitting layout (the attempt list is `[9, 8]`). -/
theorem c3_font_size_search_witness :
    8 ≤ 9 ∧
    ((render_font_sizes (fun _ => false) 9).length ≤ 9 - 7 ∧
    render_font_sizes (fun _ => false) 9 =
      (List.range (render_font_sizes (fun _ => false) 9).length).map (fun i => 9 - i) ∧
    render_font_sizes (fun _ => false) 9 ≠ [] ∧
    (∀ s ∈ render_font_sizes (fun _ => false) 9, 8 ≤ s ∧ s ≤ 9) ∧
    ((fun _ => false) ((render_font_sizes (fun _ => false) 9).getLastD 0) = false →
      (render_font_sizes (fun _ => false) 9).getLastD 0 = 8)) :=
  ⟨by decide, c3_font_size_search (fun _ => false) 9 (by decide)⟩

/-! Lemmas about `_next_word_index` and the word-unit decomposition. -/

theorem take_takeWhile_length {α : Type} (p : α → Bool) :
    ∀ l : List α, l.take (l.takeWhile p).length = l.takeWhile p := by
  intro l
  induction l with
  | nil => rfl
  | cons c rest ih =>
    by_cases hp : p c
    · rw [List.takeWhile_cons_of_pos hp]
      simpa [List.take_succ_cons] using ih
    · rw [List.takeWhile_cons_of_neg hp]
      rfl

theorem drop_takeWhile_length {α : Type} (p : α → Bool) :
    ∀ l : List α, l.drop (l.takeWhile p).length = l.dropWhile p := by
  intro l
  induction l with
  | nil => rfl
  | cons c rest ih =>
    by_cases hp : p c
    · rw [List.takeWhile_cons_of_pos hp, List.dropWhile_cons_of_pos hp]
      simpa using ih
    · rw [List.takeWhile_cons_of_neg hp, List.dropWhile_cons_of_neg hp]
      rfl

theorem skip_while_spec (p : Char → Bool) (text : List Char) :
    ∀ f s, text.length - s ≤ f →
      skip_while p text f s = s + ((text.drop s).takeWhile p).length := by
  intro f
  induction f with
  | zero =>
    intro s hf
    have hdrop : text.drop s = [] := List.drop_eq_nil_iff.mpr (by omega)
    simp [skip_while, hdrop]
  | succ f ih =>
    intro s hf
    by_cases hs : s < text.length
    · have hdrop : text.drop s = text[s] :: text.drop (s + 1) :=
        List.drop_eq_getElem_cons hs
      by_cases hp : p (text[s])
      · rw [show skip_while p text (f + 1) s = skip_while p text f (s + 1) by
          simp [skip_while, hs, hp]]
        rw [ih (s + 1) (by omega), hdrop, List.takeWhile_cons_of_pos hp]
        simp
        omega
      · rw [show skip_while p text (f + 1) s = s by simp [skip_while, hs, hp],
          hdrop, List.takeWhile_cons_of_neg hp]
        simp
    · have hdrop : text.drop s = [] := List.drop_eq_nil_iff.mpr (by omega)
      rw [show skip_while p text (f + 1) s = s by simp [skip_while, hs], hdrop]
      simp

theorem chunk_head_append_tail (l : List Char) :
    chunk_head l ++ chunk_tail l = l := by
  unfold chunk_head chunk_tail
  rw [List.append_assoc, List.takeWhile_append_dropWhile,
    List.takeWhile_append_dropWhile]

theorem chunk_head_length (l : List Char) :
    (chunk_head l).length =
      (l.takeWhile (fun c => ! c.isWhitespace)).length +
        ((l.dropWhile (fun c => ! c.isWhitespace)).takeWhile Char.isWhitespace).length := by
  unfold chunk_head
  rw [List.length_append]

theorem chunk_head_length_pos (l : List Char) (hl : l ≠ []) :
    1 ≤ (chunk_head l).length := by
  rcases l with _ | ⟨c, rest⟩
  · exact absurd rfl hl
  · rw [chunk_head_length]
    by_cases hw : c.isWhitespace
    · have h1 : (c :: rest).dropWhile (fun c => ! c.isWhitespace) = c :: rest := by
        rw [List.dropWhile_cons_of_neg (by simp [hw])]
      rw [h1, List.takeWhile_cons_of_pos hw]
      simp only [List.length_cons]
      omega
    · rw [List.takeWhile_cons_of_pos (by simp [hw])]
      simp only [List.length_cons]
      omega

theorem chunk_head_length_le (l : List Char) : (chunk_head l).length ≤ l.length := by
  conv_rhs => rw [← chunk_head_append_tail l]
  rw [List.length_append]
  omega

theorem next_word_index_eq (text : List Char) (i : Nat) :
    _next_word_index text i = i + (chunk_head (text.drop i)).length := by
  unfold _next_word_index
  rw [skip_while_spec _ text text.length i (by omega)]
  rw [skip_while_spec _ text text.length _ (by omega)]
  have hdd : text.drop (i + ((text.drop i).takeWhile (fun c => ! c.isWhitespace)).length) =
      (text.drop i).dropWhile (fun c => ! c.isWhitespace) := by
    rw [← List.drop_drop, drop_takeWhile_length]
  rw [hdd, chunk_head_length]
  omega

theorem drop_next_word_index (text : List Char) (i : Nat) :
    text.drop (_next_word_index text i) = chunk_tail (text.drop i) := by
  rw [next_word_index_eq, chunk_head_length, ← Nat.add_assoc]
  rw [← List.drop_drop, ← List.drop_drop, drop_takeWhile_length, drop_takeWhile_length]
  rfl

theorem slice_next_word_index (text : List Char) (i : Nat) :
    pySlice text i (_next_word_index text i) = chunk_head (text.drop i) := by
  rw [next_word_index_eq]
  unfold pySlice
  rw [Nat.add_sub_cancel_left, chunk_head_length, List.take_add,
    take_takeWhile_length, drop_takeWhile_length, take_takeWhile_length]
  rfl

theorem next_word_index_gt (text : List Char) (i : Nat) (hi : i < text.length) :
    i < _next_word_index text i := by
  rw [next_word_index_eq]
  have hne : text.drop i ≠ [] := by
    intro hc
    rw [List.drop_eq_nil_iff] at hc
    omega
  have := chunk_head_length_pos (text.drop i) hne
  omega

theorem next_word_index_le (text : List Char) (i : Nat) (hi : i ≤ text.length) :
    _next_word_index text i ≤ text.length := by
  rw [next_word_index_eq]
  have h1 := chunk_head_length_le (text.drop i)
  rw [List.length_drop] at h1
  omega

theorem pySlice_self (text : List Char) (a : Nat) : pySlice text a a = [] := by
  simp [pySlice]

theorem pySlice_append (text : List Char) (a b c : Nat) (hab : a ≤ b)
    (hbc : b ≤ c) : pySlice text a b ++ pySlice text b c = pySlice text a c := by
  unfold pySlice
  have hdb : text.drop b = (text.drop a).drop (b - a) := by
    rw [List.drop_drop]
    congr 1
    omega
  rw [hdb, ← List.take_add]
  congr 1
  omega

theorem pad_go_step_none (emap : List Char → Option String)
    (getPad : String → List Char × Nat × Nat) (text : List Char)
    (f index li : Nat) (tp : Int) (nt : List Char)
    (em : List (Int × String × Nat × Nat)) (hlt : index < text.length)
    (hm : emap (pyStrip (pySlice text index (_next_word_index text index))) = none) :
    pad_go emap getPad text (f + 1) index li tp nt em =
      pad_go emap getPad text f (_next_word_index text index) li tp nt em := by
  simp only [pad_go, hm, if_pos hlt]

theorem pad_go_step_some (emap : List Char → Option String)
    (getPad : String → List Char × Nat × Nat) (text : List Char)
    (f index li : Nat) (tp : Int) (nt : List Char)
    (em : List (Int × String × Nat × Nat)) (e : String) (hlt : index < text.length)
    (hm : emap (pyStrip (pySlice text index (_next_word_index text index))) = some e) :
    pad_go emap getPad text (f + 1) index li tp nt em =
      pad_go emap getPad text f (_next_word_index text index)
        (_next_word_index text index)
        (tp + ((pyReplace (pySlice text index (_next_word_index text index))
            (pyStrip (pySlice text index (_next_word_index text index)))
            (getPad e).1).length : Int) -
          ((pySlice text index (_next_word_index text index)).length : Int))
        (nt ++ pySlice text li index ++
          pyReplace (pySlice text index (_next_word_index text index))
            (pyStrip (pySlice text index (_next_word_index text index)))
            (getPad e).1)
        (em ++ [((index : Int) + tp, e, (getPad e).2)]) := by
  simp only [pad_go, hm, if_pos hlt]

theorem pad_go_stop (emap : List Char → Option String)
    (getPad : String → List Char × Nat × Nat) (text : List Char)
    (f index li : Nat) (tp : Int) (nt : List Char)
    (em : List (Int × String × Nat × Nat)) (hge : ¬index < text.length) :
    pad_go emap getPad text (f + 1) index li tp nt em =
      (if li ≠ index then nt ++ pySlice text li index else nt, em) := by
  simp only [pad_go, if_neg hge]

theorem pad_go_spec (emap : List Char → Option String)
    (getPad : String → List Char × Nat × Nat) (text : List Char) :
    ∀ f index last_index tp nt em,
      last_index ≤ index → index ≤ text.length →
      (pad_go emap getPad text f index last_index tp nt em).1 =
        nt ++ pySlice text last_index index ++
          chunk_pad_text emap getPad f (text.drop index) ∧
      (pad_go emap getPad text f index last_index tp nt em).2.length =
        em.length + chunk_count emap f (text.drop index) := by
  intro f
  induction f with
  | zero =>
    intro index last_index tp nt em hli hidx
    refine ⟨?_, ?_⟩
    · show (if last_index ≠ index then nt ++ pySlice text last_index index else nt) = _
      have hc : chunk_pad_text emap getPad 0 (text.drop index) = [] := rfl
      rw [hc, List.append_nil]
      by_cases hne : last_index = index
      · rw [if_neg (by simp [hne]), hne, pySlice_self, List.append_nil]
      · rw [if_pos hne]
    · show em.length = em.length + chunk_count emap 0 (text.drop index)
      rfl
  | succ f ih =>
    intro index last_index tp nt em hli hidx
    by_cases hlt : index < text.length
    · obtain ⟨c, cs, hcons⟩ : ∃ c cs, text.drop index = c :: cs := by
        rcases hd : text.drop index with _ | ⟨c, cs⟩
        · rw [List.drop_eq_nil_iff] at hd
          omega
        · exact ⟨c, cs, rfl⟩
      have hnwi_gt := next_word_index_gt text index hlt
      have hnwi_le := next_word_index_le text index (by omega)
      have hword : pySlice text index (_next_word_index text index) =
          chunk_head (text.drop index) := slice_next_word_index text index
      have hdropn : text.drop (_next_word_index text index) =
          chunk_tail (text.drop index) := drop_next_word_index text index
      have hslice2 : pySlice text last_index index ++ chunk_head (text.drop index) =
          pySlice text last_index (_next_word_index text index) := by
        rw [← hword]
        exact pySlice_append text last_index index _ hli (by omega)
      have hcpt : chunk_pad_text emap getPad (f + 1) (text.drop index) =
          (match emap (pyStrip (chunk_head (text.drop index))) with
            | some e =>
              pyReplace (chunk_head (text.drop index))
                (pyStrip (chunk_head (text.drop index))) (getPad e).1
            | none => chunk_head (text.drop index)) ++
            chunk_pad_text emap getPad f (chunk_tail (text.drop index)) := by
        rw [hcons]
        simp only [chunk_pad_text]
      have hcc : chunk_count emap (f + 1) (text.drop index) =
          (if (emap (pyStrip (chunk_head (text.drop index)))).isSome then 1 else 0) +
            chunk_count emap f (chunk_tail (text.drop index)) := by
        rw [hcons]
        simp only [chunk_count]
      cases hm : emap (pyStrip (pySlice text index (_next_word_index text index))) with
      | none =>
        have hm' : emap (pyStrip (chunk_head (text.drop index))) = none := by
          rw [← hword]
          exact hm
        rw [pad_go_step_none emap getPad text f index last_index tp nt em hlt hm]
        obtain ⟨ih1, ih2⟩ :=
          ih (_next_word_index text index) last_index tp nt em (by omega) hnwi_le
        refine ⟨?_, ?_⟩
        · rw [ih1, hcpt]
          simp only [hm']
          rw [hdropn, ← List.append_assoc, ← hslice2]
          simp [List.append_assoc]
        · rw [ih2, hcc]
          simp only [hm', Option.isSome_none, Bool.false_eq_true, if_false, hdropn]
          omega
      | some e =>
        have hm' : emap (pyStrip (chunk_head (text.drop index))) = some e := by
          rw [← hword]
          exact hm
        rw [pad_go_step_some emap getPad text f index last_index tp nt em e hlt hm]
        obtain ⟨ih1, ih2⟩ :=
          ih (_next_word_index text index) (_next_word_index text index) _ _ _
            (Nat.le_refl _) hnwi_le
        refine ⟨?_, ?_⟩
        · rw [ih1, hcpt]
          simp only [hm']
          rw [hdropn, pySlice_self, hword]
          simp [List.append_assoc]
        · rw [ih2, hcc]
          simp only [hm', Option.isSome_some, if_true, hdropn, List.length_append,
            List.length_cons, List.length_nil]
          omega
    · have hdrop : text.drop index = [] := List.drop_eq_nil_iff.mpr (by omega)
      rw [pad_go_stop emap getPad text f index last_index tp nt em hlt, hdrop]
      refine ⟨?_, ?_⟩
      · show (if last_index ≠ index then nt ++ pySlice text last_index index else nt) = _
        have hc : chunk_pad_text emap getPad (f + 1) ([] : List Char) = [] := rfl
        rw [hc, List.append_nil]
        by_cases hne : last_index = index
        · rw [if_neg (by simp [hne]), hne, pySlice_self, List.append_nil]
        · rw [if_pos hne]
      · show em.length = em.length + chunk_count emap (f + 1) ([] : List Char)
        rfl

theorem chunk_tail_length_lt (l : List Char) (hl : l ≠ []) :
    (chunk_tail l).length < l.length := by
  have hd := congrArg List.length (chunk_head_append_tail l)
  rw [List.length_append] at hd
  have hpos := chunk_head_length_pos l hl
  omega

theorem dropWhile_append_of_all {α : Type} (p : α → Bool) :
    ∀ l1 l2 : List α, (∀ a ∈ l1, p a) →
      List.dropWhile p (l1 ++ l2) = List.dropWhile p l2 := by
  intro l1
  induction l1 with
  | nil => intro l2 _; rfl
  | cons c rest ih =>
    intro l2 hall
    rw [List.cons_append, List.dropWhile_cons_of_pos (hall c (by simp))]
    exact ih l2 (fun a ha => hall a (by simp [ha]))

theorem pyStrip_all_ws (u : List Char) (h : ∀ x ∈ u, x.isWhitespace) :
    pyStrip u = [] := by
  unfold pyStrip
  rw [List.dropWhile_eq_nil_iff.mpr (fun x hx => h x hx)]
  rfl

theorem pyStrip_core (core wsr : List Char) (hne : core ≠ [])
    (hcore : ∀ x ∈ core, ¬x.isWhitespace) (hwsr : ∀ x ∈ wsr, x.isWhitespace) :
    pyStrip (core ++ wsr) = core := by
  unfold pyStrip
  rcases core with _ | ⟨c0, core'⟩
  · exact absurd rfl hne
  · rw [List.cons_append,
      List.dropWhile_cons_of_neg (by simpa using hcore c0 (by simp)),
      ← List.cons_append, List.reverse_append,
      dropWhile_append_of_all _ _ _ (by
        intro a ha
        exact hwsr a (by simpa using ha))]
    have hrev : (c0 :: core').reverse ≠ [] := by simp
    rcases hr : (c0 :: core').reverse with _ | ⟨r0, rrest⟩
    · exact absurd hr hrev
    · have hr0 : r0 ∈ (c0 :: core').reverse := by rw [hr]; simp
      have hr0' : r0 ∈ c0 :: core' := by
        rw [← List.mem_reverse, hr]
        simp
      rw [List.dropWhile_cons_of_neg (by simpa using hcore r0 hr0')]
      rw [← hr, List.reverse_reverse]

theorem chunk_pad_text_id (emap : List Char → Option String)
    (getPad : String → List Char × Nat × Nat) :
    ∀ f s, s.length ≤ f →
      (∀ u ∈ word_chunks_go f s, emap (pyStrip u) = none) →
      chunk_pad_text emap getPad f s = s ∧ chunk_count emap f s = 0 := by
  intro f
  induction f with
  | zero =>
    intro s hf _
    have hs : s = [] := by
      rcases s with _ | ⟨c, cs⟩
      · rfl
      · simp at hf
    subst hs
    exact ⟨rfl, rfl⟩
  | succ f ih =>
    intro s hf hall
    rcases s with _ | ⟨c, cs⟩
    · exact ⟨rfl, rfl⟩
    · have hmem : chunk_head (c :: cs) ∈ word_chunks_go (f + 1) (c :: cs) := by
        simp [word_chunks_go]
      have hhead := hall _ hmem
      have htail : ∀ u ∈ word_chunks_go f (chunk_tail (c :: cs)),
          emap (pyStrip u) = none := by
        intro u hu
        exact hall u (by simp [word_chunks_go, hu])
      have hlen : (chunk_tail (c :: cs)).length ≤ f := by
        have := chunk_tail_length_lt (c :: cs) (by simp)
        simp only [List.length_cons] at this hf
        omega
      obtain ⟨ih1, ih2⟩ := ih (chunk_tail (c :: cs)) hlen htail
      constructor
      · simp only [chunk_pad_text, hhead, ih1]
        exact chunk_head_append_tail (c :: cs)
      · simp only [chunk_count, hhead, ih2, Option.isSome_none]
        rfl

theorem chunk_count_eq_split_words (emap : List Char → Option String)
    (hempty : emap [] = none) :
    ∀ f s, chunk_count emap f s =
      (split_words_go f s).countP (fun t => (emap t).isSome) := by
  intro f
  induction f with
  | zero => intro s; rfl
  | succ f ih =>
    intro s
    rcases s with _ | ⟨c, cs⟩
    · rfl
    · by_cases hw : c.isWhitespace
      · have hdw : (c :: cs).dropWhile (fun x => ! x.isWhitespace) = c :: cs :=
          List.dropWhile_cons_of_neg (by simp [hw])
        have hch : chunk_head (c :: cs) = (c :: cs).takeWhile Char.isWhitespace := by
          unfold chunk_head
          rw [List.takeWhile_cons_of_neg (by simp [hw]), hdw, List.nil_append]
        have hct : chunk_tail (c :: cs) = (c :: cs).dropWhile Char.isWhitespace := by
          unfold chunk_tail
          rw [hdw]
        have hstrip : pyStrip (chunk_head (c :: cs)) = [] := by
          rw [hch]
          exact pyStrip_all_ws _ (fun x hx => List.mem_takeWhile_imp hx)
        simp only [chunk_count, hstrip, hempty, Option.isSome_none,
          Bool.false_eq_true, if_false, Nat.zero_add]
        simp only [split_words_go, if_pos hw]
        rw [hct, ih]
      · have hcore_ne : (c :: cs).takeWhile (fun x => ! x.isWhitespace) ≠ [] := by
          rw [List.takeWhile_cons_of_pos (by simp [hw])]
          simp
        have hstrip : pyStrip (chunk_head (c :: cs)) =
            (c :: cs).takeWhile (fun x => ! x.isWhitespace) := by
          unfold chunk_head
          exact pyStrip_core _ _ hcore_ne
            (fun x hx => by simpa using List.mem_takeWhile_imp hx)
            (fun x hx => List.mem_takeWhile_imp hx)
        simp only [chunk_count, hstrip]
        simp only [split_words_go, if_neg hw]
        rw [List.countP_cons, ih]
        omega

/-- C4, counterexample: with the pathological embedding map whose only key is
the empty string and the input text `" a"` (leading whitespace), the scan
looks up `" ".strip() = ""` and records one embed, while the empty string
occurs zero times among the whitespace-delimited words of the text — so the
record count does not equal the key-word occurrence count. -/
theorem c4_embed_count_counterexample :
    (_pad_embeddings (fun u => if u = [] then some "img" else none)
        (fun _ => ([' '], 1, 1)) [' ', 'a']).2.length = 1 ∧
    (split_words [' ', 'a']).countP
      (fun t => ((fun u => if u = [] then some "img" else none) t).isSome) = 0 ∧
    (_pad_embeddings (fun u => if u = [] then some "img" else none)
        (fun _ => ([' '], 1, 1)) [' ', 'a']).2.length ≠
      (split_words [' ', 'a']).countP
        (fun t => ((fun u => if u = [] then some "img" else none) t).isSome) := by
  decide

/-- C4, amended: for every embedding map that does not have the empty string
as a key, the number of embed records returned by `_pad_embeddings` equals
the number of whitespace-delimited words of the input text whose (trimmed)
form is a key of the map, and the padded text is the word-by-word image of
the input in which only matched word units are replaced — every other word
unit is copied through unchanged (`chunk_pad_text`). -/
theorem c4_embed_count_preservation (emap : List Char → Option String)
    (getPad : String → List Char × Nat × Nat) (text : List Char)
    (hempty : emap [] = none) :
    (_pad_embeddings emap getPad text).2.length =
      (split_words text).countP (fun t => (emap t).isSome) ∧
    (_pad_embeddings emap getPad text).1 =
      chunk_pad_text emap getPad text.length text := by
  obtain ⟨h1, h2⟩ :=
    pad_go_spec emap getPad text text.length 0 0 0 [] [] (Nat.le_refl 0) (by omega)
  constructor
  · unfold _pad_embeddings
    rw [h2, chunk_count_eq_split_words emap hempty]
    simp only [List.length_nil, Nat.zero_add, List.drop_zero]
    rfl
  · unfold _pad_embeddings
    rw [h1]
    simp [pySlice_self, List.drop_zero]

/-- C4, witness: the amended statement at the map `{"F": "fire"}` and text
`"a F b"` (one matched word, record count 1). -/
theorem c4_embed_count_witness :
    (fun u => if u = ['F'] then some "fire" else none) [] = none ∧
    ((_pad_embeddings (fun u => if u = ['F'] then some "fire" else none)
        (fun _ => ([' ', ' '], 3, 3)) "a F b".toList).2.length =
      (split_words "a F b".toList).countP
        (fun t => ((fun u => if u = ['F'] then some "fire" else none) t).isSome) ∧
    (_pad_embeddings (fun u => if u = ['F'] then some "fire" else none)
        (fun _ => ([' ', ' '], 3, 3)) "a F b".toList).1 =
      chunk_pad_text (fun u => if u = ['F'] then some "fire" else none)
        (fun _ => ([' ', ' '], 3, 3)) "a F b".toList.length "a F b".toList) :=
  ⟨by decide,
    c4_embed_count_preservation (fun u => if u = ['F'] then some "fire" else none)
      (fun _ => ([' ', ' '], 3, 3)) "a F b".toList (by decide)⟩

/-- Every scanned word unit of a text trims either to the empty string (the
leading pure-whitespace unit of a text that opens with whitespace) or to one
of the whitespace-delimited words of the text. -/
theorem word_chunks_strip_mem :
    ∀ f s u, u ∈ word_chunks_go f s →
      pyStrip u = [] ∨ pyStrip u ∈ split_words_go f s := by
  intro f
  induction f with
  | zero =>
    intro s u hu
    simp [word_chunks_go] at hu
  | succ f ih =>
    intro s u hu
    rcases s with _ | ⟨c, cs⟩
    · simp [word_chunks_go] at hu
    · rcases List.mem_cons.mp hu with rfl | hu'
      · by_cases hw : c.isWhitespace
        · left
          have hdw : (c :: cs).dropWhile (fun x => ! x.isWhitespace) = c :: cs :=
            List.dropWhile_cons_of_neg (by simp [hw])
          have hch : chunk_head (c :: cs) = (c :: cs).takeWhile Char.isWhitespace := by
            unfold chunk_head
            rw [List.takeWhile_cons_of_neg (by simp [hw]), hdw, List.nil_append]
          rw [hch]
          exact pyStrip_all_ws _ (fun x hx => List.mem_takeWhile_imp hx)
        · right
          have hcore_ne : (c :: cs).takeWhile (fun x => ! x.isWhitespace) ≠ [] := by
            rw [List.takeWhile_cons_of_pos (by simp [hw])]
            simp
          have hstrip : pyStrip (chunk_head (c :: cs)) =
              (c :: cs).takeWhile (fun x => ! x.isWhitespace) := by
            unfold chunk_head
            exact pyStrip_core _ _ hcore_ne
              (fun x hx => by simpa using List.mem_takeWhile_imp hx)
              (fun x hx => List.mem_takeWhile_imp hx)
          rw [hstrip]
          simp only [split_words_go, if_neg hw]
          exact List.mem_cons_self _ _
      · rcases ih (chunk_tail (c :: cs)) u hu' with h0 | hmem
        · exact Or.inl h0
        · right
          by_cases hw : c.isWhitespace
          · have hdw : (c :: cs).dropWhile (fun x => ! x.isWhitespace) = c :: cs :=
              List.dropWhile_cons_of_neg (by simp [hw])
            have hct : chunk_tail (c :: cs) = (c :: cs).dropWhile Char.isWhitespace := by
              unfold chunk_tail
              rw [hdw]
            simp only [split_words_go, if_pos hw]
            rw [← hct]
            exact hmem
          · simp only [split_words_go, if_neg hw]
            exact List.mem_cons_of_mem _ hmem

/-- C9, counterexample: the claim as stated is false.  With the embedding
map whose only key is the empty string and the text `" a"`, no
whitespace-delimited word of the text (there is exactly one, `"a"`) is a key
of the map — the claim's hypothesis holds — yet `_pad_embeddings` is not the
identity: the scan trims the leading whitespace run `" "` to `""`, finds it
in the map, records an embed and rewrites the text. -/
theorem c9_identity_counterexample :
    (∀ w ∈ split_words [' ', 'a'],
      (fun u => if u = [] then some "img" else none) w = none) ∧
    _pad_embeddings (fun u => if u = [] then some "img" else none)
      (fun _ => ([' '], 1, 1)) [' ', 'a'] ≠ ([' ', 'a'], []) := by
  refine ⟨by decide, by decide⟩

/-- C9, amended: for every input text in which no whitespace-delimited word,
after trimming surrounding whitespace, is a key of the embedding map, and
provided additionally that the empty string is not a key of the map (Python:
`'' not in embedding_map` — otherwise a leading whitespace run of the text
trims to `''` and is matched), `_pad_embeddings` returns the original text
unchanged together with an empty embed-record list — it is the identity on
texts containing no recognized tokens. -/
theorem c9_pad_identity_no_keys (emap : List Char → Option String)
    (getPad : String → List Char × Nat × Nat) (text : List Char)
    (hempty : emap [] = none)
    (hwords : ∀ w ∈ split_words text, emap w = none) :
    _pad_embeddings emap getPad text = (text, []) := by
  have hchunks : ∀ u ∈ word_chunks text, emap (pyStrip u) = none := by
    intro u hu
    rcases word_chunks_strip_mem text.length text u hu with h0 | hmem
    · rw [h0]
      exact hempty
    · exact hwords _ hmem
  obtain ⟨h1, h2⟩ :=
    pad_go_spec emap getPad text text.length 0 0 0 [] [] (Nat.le_refl 0) (by omega)
  obtain ⟨hid, hcnt⟩ :=
    chunk_pad_text_id emap getPad text.length text (Nat.le_refl _)
      (fun u hu => hchunks u hu)
  have hfst : (_pad_embeddings emap getPad text).1 = text := by
    unfold _pad_embeddings
    rw [h1]
    simp only [pySlice_self, List.drop_zero, List.nil_append, List.append_nil, hid]
  have hsnd : (_pad_embeddings emap getPad text).2 = [] := by
    rw [← List.length_eq_zero]
    unfold _pad_embeddings
    rw [h2]
    simp only [List.drop_zero, List.length_nil, Nat.zero_add, hcnt]
  exact Prod.ext hfst hsnd

/-- C9, witness: the amended identity at the map `{"z": "img"}` (a key that
occurs nowhere in the text, and no empty-string key) and text `"hi x"`. -/
theorem c9_pad_identity_no_keys_witness :
    (fun u => if u = ['z'] then some "img" else none) [] = none ∧
    (∀ w ∈ split_words "hi x".toList,
      (fun u => if u = ['z'] then some "img" else none) w = none) ∧
    _pad_embeddings (fun u => if u = ['z'] then some "img" else none)
      (fun _ => ([' '], 1, 1)) "hi x".toList = ("hi x".toList, []) :=
  ⟨by decide, by decide,
    c9_pad_identity_no_keys (fun u => if u = ['z'] then some "img" else none)
      (fun _ => ([' '], 1, 1)) "hi x".toList (by decide) (by decide)⟩

/-! Lemmas about the padding-growth loop. -/

theorem pad_count_go_ge (sw : Nat → Nat) (target : ℚ) :
    ∀ f n, n ≤ pad_count_go sw target f n := by
  intro f
  induction f with
  | zero => intro n; exact Nat.le_refl n
  | succ f ih =>
    intro n
    simp only [pad_count_go]
    split
    · exact Nat.le_trans (Nat.le_succ n) (ih (n + 1))
    · exact Nat.le_refl n

theorem pad_count_go_below (sw : Nat → Nat) (target : ℚ) :
    ∀ f n k, n ≤ k → k < pad_count_go sw target f n → (sw k : ℚ) < target := by
  intro f
  induction f with
  | zero =>
    intro n k h1 h2
    simp only [pad_count_go] at h2
    omega
  | succ f ih =>
    intro n k h1 h2
    by_cases hc : (sw n : ℚ) < target
    · simp only [pad_count_go, if_pos hc] at h2
      by_cases hk : k = n
      · subst hk
        exact hc
      · exact ih (n + 1) k (by omega) h2
    · simp only [pad_count_go, if_neg hc] at h2
      omega

theorem pad_count_go_reach (sw : Nat → Nat) (target : ℚ) :
    ∀ f n, (∃ m, n ≤ m ∧ m ≤ n + f ∧ target ≤ (sw m : ℚ)) →
      target ≤ (sw (pad_count_go sw target f n) : ℚ) := by
  intro f
  induction f with
  | zero =>
    rintro n ⟨m, h1, h2, h3⟩
    have hm : m = n := by omega
    subst hm
    simpa [pad_count_go] using h3
  | succ f ih =>
    rintro n ⟨m, h1, h2, h3⟩
    by_cases hc : (sw n : ℚ) < target
    · simp only [pad_count_go, if_pos hc]
      refine ih (n + 1) ⟨m, ?_, by omega, h3⟩
      have hne : m ≠ n := by
        intro he
        subst he
        exact absurd h3 (not_le.mpr hc)
      omega
    · simp only [pad_count_go, if_neg hc]
      exact not_lt.mp hc

/-- C6: `_get_padding_str` returns a non-empty run of spaces whose rendered
width `sw n` is minimal among the rendered widths, at or above the target
width `(W / H) · line_height`, of non-empty space runs (for a monotone space
metric, the loop stops at the least such count), together with the embed
pixel size `(sw n, ⌊H · sw n / W⌋)` — the image scaled uniformly so that its
width equals the achieved padding width, the exact aspect-preserving height
`H · (sw n / W)` being truncated to an integer only at the end.  The
hypotheses record that the image is non-degenerate, that a single space has
positive rendered width, that the space metric is monotone, and that `fuel`
iterations of the Python `while` loop suffice to reach the target. -/
theorem c6_padding_minimal_and_aspect (sw : Nat → Nat)
    (height_px img_w img_h fuel : Nat) (hW : 1 ≤ img_w) (hH : 1 ≤ img_h)
    (hsw1 : 1 ≤ sw 1) (hmono : ∀ a b, a ≤ b → sw a ≤ sw b)
    (hfuel : ((img_w : ℚ) / (img_h : ℚ)) * (height_px : ℚ) ≤ (sw (1 + fuel) : ℚ)) :
    1 ≤ (_get_padding_str sw height_px img_w img_h fuel).1 ∧
    ((img_w : ℚ) / (img_h : ℚ)) * (height_px : ℚ) ≤
      (sw (_get_padding_str sw height_px img_w img_h fuel).1 : ℚ) ∧
    (∀ k, 1 ≤ k → k < (_get_padding_str sw height_px img_w img_h fuel).1 →
      (sw k : ℚ) < ((img_w : ℚ) / (img_h : ℚ)) * (height_px : ℚ)) ∧
    (∀ k, 1 ≤ k →
      ((img_w : ℚ) / (img_h : ℚ)) * (height_px : ℚ) ≤ (sw k : ℚ) →
      sw (_get_padding_str sw height_px img_w img_h fuel).1 ≤ sw k) ∧
    (_get_padding_str sw height_px img_w img_h fuel).2.1 =
      sw (_get_padding_str sw height_px img_w img_h fuel).1 ∧
    (_get_padding_str sw height_px img_w img_h fuel).2.2 =
      Int.toNat ⌊(img_h : ℚ) * (sw (_get_padding_str sw height_px img_w img_h fuel).1 : ℚ) /
        (img_w : ℚ)⌋ := by
  have hr : _get_padding_str sw height_px img_w img_h fuel =
      (pad_count_go sw (((img_w : ℚ) / (img_h : ℚ)) * (height_px : ℚ)) fuel 1,
        Int.toNat ⌊(img_w : ℚ) /
          ((img_w : ℚ) / (sw (pad_count_go sw
            (((img_w : ℚ) / (img_h : ℚ)) * (height_px : ℚ)) fuel 1) : ℚ))⌋,
        Int.toNat ⌊(img_h : ℚ) /
          ((img_w : ℚ) / (sw (pad_count_go sw
            (((img_w : ℚ) / (img_h : ℚ)) * (height_px : ℚ)) fuel 1) : ℚ))⌋) := rfl
  rw [hr]
  have hge : 1 ≤ pad_count_go sw (((img_w : ℚ) / (img_h : ℚ)) * (height_px : ℚ)) fuel 1 :=
    pad_count_go_ge sw _ fuel 1
  have hswn : 1 ≤ sw (pad_count_go sw
      (((img_w : ℚ) / (img_h : ℚ)) * (height_px : ℚ)) fuel 1) :=
    Nat.le_trans hsw1 (hmono 1 _ hge)
  have hWne : (img_w : ℚ) ≠ 0 := Nat.cast_ne_zero.mpr (by omega)
  have hpne : (sw (pad_count_go sw
      (((img_w : ℚ) / (img_h : ℚ)) * (height_px : ℚ)) fuel 1) : ℚ) ≠ 0 :=
    Nat.cast_ne_zero.mpr (by omega)
  have hreach : ((img_w : ℚ) / (img_h : ℚ)) * (height_px : ℚ) ≤
      (sw (pad_count_go sw (((img_w : ℚ) / (img_h : ℚ)) * (height_px : ℚ)) fuel 1) : ℚ) :=
    pad_count_go_reach sw _ fuel 1 ⟨1 + fuel, by omega, by omega, hfuel⟩
  have hdiv : (img_w : ℚ) / ((img_w : ℚ) /
      (sw (pad_count_go sw (((img_w : ℚ) / (img_h : ℚ)) * (height_px : ℚ)) fuel 1) : ℚ)) =
      (sw (pad_count_go sw (((img_w : ℚ) / (img_h : ℚ)) * (height_px : ℚ)) fuel 1) : ℚ) := by
    rw [div_div_eq_mul_div, mul_comm, mul_div_assoc, div_self hWne, mul_one]
  refine ⟨hge, hreach, ?_, ?_, ?_, ?_⟩
  · intro k hk hklt
    exact pad_count_go_below sw _ fuel 1 k hk hklt
  · intro k hk htk
    by_cases hkn : k < pad_count_go sw (((img_w : ℚ) / (img_h : ℚ)) * (height_px : ℚ)) fuel 1
    · exact absurd htk (not_le.mpr (pad_count_go_below sw _ fuel 1 k hk hkn))
    · exact hmono _ k (by omega)
  · show Int.toNat ⌊(img_w : ℚ) / _⌋ = _
    rw [hdiv, Int.floor_natCast]
    exact Int.toNat_natCast _
  · show Int.toNat ⌊(img_h : ℚ) / _⌋ = _
    rw [div_div_eq_mul_div]

/-- Concrete space metric used by the C6 witness: each space renders 10px
wide. -/
def sw10 (n : Nat) : Nat := 10 * n

/-- C6, witness: the spec's Scenario 2 shape — a 64×64 image, line height 20
(so target width 20), and a space metric of 10px per space: the loop stops at
two spaces (width 20) and the embed size is corrected to 20×20. -/
theorem c6_padding_witness :
    1 ≤ (_get_padding_str sw10 20 64 64 5).1 ∧
    ((64 : ℚ) / (64 : ℚ)) * (20 : ℚ) ≤
      (sw10 (_get_padding_str sw10 20 64 64 5).1 : ℚ) ∧
    (∀ k, 1 ≤ k → k < (_get_padding_str sw10 20 64 64 5).1 →
      (sw10 k : ℚ) < ((64 : ℚ) / (64 : ℚ)) * (20 : ℚ)) ∧
    (∀ k, 1 ≤ k →
      ((64 : ℚ) / (64 : ℚ)) * (20 : ℚ) ≤ (sw10 k : ℚ) →
      sw10 (_get_padding_str sw10 20 64 64 5).1 ≤ sw10 k) ∧
    (_get_padding_str sw10 20 64 64 5).2.1 =
      sw10 (_get_padding_str sw10 20 64 64 5).1 ∧
    (_get_padding_str sw10 20 64 64 5).2.2 =
      Int.toNat ⌊(64 : ℚ) * (sw10 (_get_padding_str sw10 20 64 64 5).1 : ℚ) / (64 : ℚ)⌋ :=
  c6_padding_minimal_and_aspect sw10 20 64 64 5 (by decide) (by decide)
    (by decide) (fun a b h => by simp only [sw10]; omega) (by norm_num [sw10])

/-- C7: `_get_v_offset` is a pure function of the alignment, the bbox bottom
coordinate `text_bbox[3]` (the height of a box anchored at the origin
`(0, 0)`, as produced by `multiline_textbbox((0, 0), ...)`) and the
placement height: `TOP` (and `None`) give 0, `MIDDLE` gives
`(placement.h − bbox[3]) / 2` truncated towards zero (`Int.tdiv`), `BOTTOM`
gives `placement.h − bbox[3]`; in particular, for `BOTTOM` with text bbox
height 40 and placement height 100 the offset is 60 (Scenario 4). -/
theorem c7_v_offset_table :
    (∀ (b : Int × Int × Int × Int) (p : Placement),
      _get_v_offset (some VerticalTextAlignment.TOP) b p = 0) ∧
    (∀ (b : Int × Int × Int × Int) (p : Placement),
      _get_v_offset (some VerticalTextAlignment.MIDDLE) b p =
        Int.tdiv (p.h - b.2.2.2) 2) ∧
    (∀ (b : Int × Int × Int × Int) (p : Placement),
      _get_v_offset (some VerticalTextAlignment.BOTTOM) b p = p.h - b.2.2.2) ∧
    (∀ (b : Int × Int × Int × Int) (p : Placement),
      _get_v_offset none b p = 0) ∧
    _get_v_offset (some VerticalTextAlignment.BOTTOM) (0, 0, 50, 40)
      ⟨0, 0, 200, 100⟩ = 60 := by
  refine ⟨fun b p => ?_, fun b p => ?_, fun b p => ?_, fun b p => ?_, by decide⟩
  · simp [_get_v_offset]
  · simp [_get_v_offset]
  · simp [_get_v_offset]
  · simp [_get_v_offset]

/-- C8, counterexample: the claim says that when a `font_file` is supplied,
no platform default lookup occurs and the configuration error is never
raised.  Supplying the empty string (a falsy value in Python) refutes this:
`font_file or _get_default_font_file()` falls through to the platform
lookup, and on a platform that is neither win32 nor darwin the construction
raises the configuration error even though a font file was supplied. -/
theorem c8_empty_font_file_counterexample :
    resolve_font_file "linux".toList (some []) =
      Except.error "No default font known for OS." ∧
    basic_init "linux".toList [] ⟨0, 0, 1, 1⟩ none (some []) none none =
      Except.error "No default font known for OS." :=
  ⟨rfl, rfl⟩

/-- C8, amended: if no `font_file` is supplied and the platform starts with
neither `win32` nor `darwin`, construction fails immediately with the
configuration error; if a *non-empty* `font_file` is supplied, construction
succeeds with exactly that file on every platform — no default lookup, no
error. -/
theorem c8_font_resolution (platform : List Char) (text : List Char)
    (placement : Placement) (max_font_size : Option Nat)
    (spacing_ratio : Option ℚ) (v_alignment : Option VerticalTextAlignment) :
    (List.isPrefixOf "win32".toList platform = false →
      List.isPrefixOf "darwin".toList platform = false →
      basic_init platform text placement max_font_size none spacing_ratio
        v_alignment = Except.error "No default font known for OS.") ∧
    (∀ s : List Char, s ≠ [] →
      (basic_init platform text placement max_font_size (some s) spacing_ratio
          v_alignment).map (fun c => c.font_file) = Except.ok s) := by
  constructor
  · intro h1 h2
    have hd : _get_default_font_file platform =
        Except.error "No default font known for OS." := by
      unfold _get_default_font_file
      rw [if_neg (by rw [h1]; simp), if_neg (by rw [h2]; simp)]
    have hres : resolve_font_file platform none =
        Except.error "No default font known for OS." := hd
    unfold basic_init
    rw [hres]
  · intro s hs
    have hres : resolve_font_file platform (some s) = Except.ok s := by
      show (if s = [] then _get_default_font_file platform else Except.ok s) =
        Except.ok s
      rw [if_neg hs]
    unfold basic_init
    rw [hres]
    rfl

/-- C8, witness: the amended statement on the platform `"linux"`: no font
supplied raises the configuration error; a non-empty font file is taken
verbatim. -/
theorem c8_font_resolution_witness :
    basic_init "linux".toList [] ⟨0, 0, 1, 1⟩ none none none none =
      Except.error "No default font known for OS." ∧
    (basic_init "linux".toList [] ⟨0, 0, 1, 1⟩ none (some ['f', '.', 't'])
        none none).map (fun c => c.font_file) = Except.ok ['f', '.', 't'] :=
  ⟨(c8_font_resolution "linux".toList [] ⟨0, 0, 1, 1⟩ none none none).1
      (by decide) (by decide),
    (c8_font_resolution "linux".toList [] ⟨0, 0, 1, 1⟩ none none none).2
      ['f', '.', 't'] (by decide)⟩

/-- C10: both constructors apply their defaults with Python `or`, so the
falsy value 0 (or 0.0) behaves exactly as passing nothing: `max_font_size=0`
yields the default 32, `spacing_ratio=0.0` yields the default 0,
`embed_v_offset_ratio=0.0` yields the default 0, and `embed_size_ratio=0.0`
yields the default 1 instead of the supplied 0. -/
theorem c10_truthiness_defaults (t : List Char) (p : Placement)
    (em : List Char → Option String) :
    ((basic_init "linux".toList t p (some 0) (some ['f']) (some 0) none).map
        (fun c => c.starting_font_size) = Except.ok 32) ∧
    ((basic_init "linux".toList t p (some 0) (some ['f']) (some 0) none).map
        (fun c => c.spacing_ratio) = Except.ok 0) ∧
    ((basic_init "linux".toList t p none (some ['f']) none none).map
        (fun c => c.starting_font_size) = Except.ok 32) ∧
    ((embedded_init "linux".toList t p em (some 0) (some ['f']) (some 0) none
        (some 0) (some 0)).map (fun c => c.starting_font_size) = Except.ok 32) ∧
    ((embedded_init "linux".toList t p em (some 0) (some ['f']) (some 0) none
        (some 0) (some 0)).map (fun c => c.spacing_ratio) = Except.ok 0) ∧
    ((embedded_init "linux".toList t p em (some 0) (some ['f']) (some 0) none
        (some 0) (some 0)).map (fun c => c.embed_v_offset_ratio) = Except.ok 0) ∧
    ((embedded_init "linux".toList t p em (some 0) (some ['f']) (some 0) none
        (some 0) (some 0)).map (fun c => c.embed_size_ratio) = Except.ok 1) ∧
    ((embedded_init "linux".toList t p em none (some ['f']) none none
        none none).map (fun c => c.embed_size_ratio) = Except.ok 1) :=
  ⟨rfl, rfl, rfl, rfl, rfl, rfl, rfl, rfl⟩
